import Mathlib

/-!
Verification development for the Catalyzer chain-reaction resource library.

The source consists of three layers:
* `molecule.ts` — the stage executor: the async generator `reaction`, its
  helper `executeGroup`, and the value-classification helpers `isPending`,
  `isRejected`, `isRefreshing`, `isResolved`.
* `catalyze.ts` — the session controller: the async generator `catalyze`
  with helpers `hasErrors`, `startReaction`, `shouldAbort`.
* `useResources.tsx` — the React binding (out of scope of the embedding
  except where a claim mentions it).

Shallow-embedding choices, documented once here:
* JavaScript values flowing through a props bag are modelled by `JSVal`.
  Atom results are strings; an atom is a function from the props bag to the
  eventual outcome of the promise it returns: either an error message or an
  optional string (`none` modelling a resolution to `undefined`).
* The engine is single-threaded and cooperative: a promise created by a
  dispatch settles exactly when the code `await`s it, so a promise value is
  modelled as its predetermined outcome plus the two `augmentPromise` flags
  and the `previousValue` annotation.  Note that in the source
  `augmentPromise` sets the flags on the *inner* promise while the engine
  stores the *chained* promise, whose own flags are never set; hence stored
  promises are faithfully modelled with both flags `false`.
* Bags (JS objects) are association lists in insertion order; spread-merge
  `{...a, ...b}` is a fold of keyed insertion of `b`'s entries over `a`.
* The two generators are embedded as explicit state machines: one state per
  suspension point (`yield`), and a resume function taking the value passed
  to `generator.next`.
-/

deriving instance DecidableEq for Except

/-- A JavaScript value held in a props bag: `undefined`, a plain (string)
value, an `Error` instance carrying its message, or a promise.  A promise
carries the `resolved`/`rejected` flags of the `augmentPromise` scheme, its
predetermined outcome (error message, or resolution to `undefined`/a string),
and the `previousValue` property set at dispatch time (reading an
unassigned property yields `undefined`, so an absent `previousValue` is
modelled as `undef`). -/
inductive JSVal where
  | undef : JSVal
  | vstr : String → JSVal
  | verr : String → JSVal
  | vpromise : Bool → Bool → Except String (Option String) → JSVal → JSVal
  deriving Repr, DecidableEq

namespace JSVal

/-- JavaScript truthiness of a value (`undefined` is falsy, the empty string
is falsy, `Error` instances and promises are objects hence truthy). -/
def truthy : JSVal → Bool
  | undef => false
  | vstr s => s ≠ ""
  | verr _ => true
  | vpromise _ _ _ _ => true

/-- Property access `a.previousValue`: present only on promise values
(`undefined` on anything else). -/
def previousValue : JSVal → JSVal
  | vpromise _ _ _ p => p
  | _ => undef

/-- The `instanceof Error` test. -/
def isErrorV : JSVal → Bool
  | verr _ => true
  | _ => false

/-- The `instanceof Promise` test. -/
def isPromiseV : JSVal → Bool
  | vpromise _ _ _ _ => true
  | _ => false

end JSVal

open JSVal

/-- `isPending` from molecule.ts: `a instanceof Promise && !a.rejected && !a.resolved`. -/
def isPending : JSVal → Bool
  | vpromise res rej _ _ => !rej && !res
  | _ => false

/-- `isRejected` from molecule.ts:
`a instanceof Error || (a instanceof Promise && !!a.rejected)`. -/
def isRejected : JSVal → Bool
  | verr _ => true
  | vpromise _ rej _ _ => rej
  | _ => false

/-- `isRefreshing` from molecule.ts: `isPending(a) && a.previousValue`; the
returned JS value is its truthiness when used as a classification. -/
def isRefreshing (a : JSVal) : Bool :=
  isPending a && truthy a.previousValue

/-- `isResolved` from molecule.ts: `undefined` is not resolved; a rejected
value, or a pending-but-not-refreshing promise, is not resolved; everything
else is. -/
def isResolved (a : JSVal) : Bool :=
  if a = undef then false
  else if isRejected a || (isPending a && !isRefreshing a) then false
  else true

/-- A props bag: a JS object as an association list in insertion order. -/
abbrev Bag := List (String × JSVal)

/-- Property read `bag[k]`: `undefined` when the key is absent. -/
def getK (b : Bag) (k : String) : JSVal :=
  match b.find? (fun p => p.1 = k) with
  | some p => p.2
  | none => undef

/-- Does the object have the key as an own property? -/
def hasK (b : Bag) (k : String) : Bool :=
  b.any (fun p => p.1 = k)

/-- Property write `bag[k] = v`: overwrite in place, or append a new key. -/
def setK (b : Bag) (k : String) (v : JSVal) : Bag :=
  if hasK b k then b.map (fun p => if p.1 = k then (k, v) else p)
  else b ++ [(k, v)]

/-- Spread merge `{...a, ...b}`: start from `a` and write each entry of `b`. -/
def mergeBags (a b : Bag) : Bag :=
  b.foldl (fun acc p => setK acc p.1 p.2) a

/-- Map a function over the values of a bag, keeping keys and order (the
shape of every in-place mutation loop over `Object.entries`). -/
def mapVals (f : JSVal → JSVal) (b : Bag) : Bag :=
  b.map (fun p => (p.1, f p.2))

/-- An atom: an async fetch function from the current props bag to the
eventual outcome of the promise it returns — a rejection (error message) or
a resolution to `undefined` (`none`) or a string value. -/
abbrev Atom := Bag → Except String (Option String)

/-- An atom group (stage): a keyed map of names to atoms, in object order. -/
abbrev AtomGroup := List (String × Atom)

/-- A molecule (graph): the ordered sequence of atom groups. -/
abbrev Molecule := List AtomGroup

/-- Awaiting a promise through `.catch((e) => e)`: a rejection becomes the
`Error` value, a resolution becomes the resolved value. -/
def awaitCatch : Except String (Option String) → JSVal
  | .error e => verr e
  | .ok none => undef
  | .ok (some s) => vstr s

/-- Awaiting a promise with a bare `await` (only reached on promises that
`isResolved` classifies as settled-successfully; a rejection here would
propagate as an engine-level exception in JS, a path unreachable for
consistently flagged promises — totalised to the error value). -/
def awaitPlain : Except String (Option String) → JSVal
  | .error e => verr e
  | .ok none => undef
  | .ok (some s) => vstr s

/-- One entry of the settle-carry-over loop of `executeGroup` (molecule.ts,
first `for` loop): rejected values are preserved as their error; resolved
promises are awaited to their resolution; everything else is left as-is. -/
def settleCarryEntry (v : JSVal) : JSVal :=
  if isRejected v then
    match v with
    | verr e => verr e
    | vpromise _ _ out _ => awaitCatch out
    | w => w
  else if isResolved v then
    match v with
    | vpromise _ _ out _ => awaitPlain out
    | w => w
  else v

/-- The settle-carry-over loop of `executeGroup` over the whole bag. -/
def settleCarry (b : Bag) : Bag := mapVals settleCarryEntry b

/-- The dispatch loop of `executeGroup` (molecule.ts, second `for` loop),
also recording which keys actually invoked their atom.  A key whose cell is
already an `Error` is skipped; otherwise the atom is invoked on the current
(partially updated) bag, the fresh promise is tagged with the previous value
when the old cell was resolved, and the cell is overwritten. -/
def dispatchGroup : AtomGroup → Bag → Bag × List String
  | [], start => (start, [])
  | kv :: rest, start =>
    let cur := getK start kv.1
    if truthy cur && isErrorV cur then dispatchGroup rest start
    else
      let out := kv.2 start
      let prev := if isResolved cur then cur else undef
      let step := dispatchGroup rest (setK start kv.1 (vpromise false false out prev))
      (step.1, kv.1 :: step.2)

/-- `executeGroup` from molecule.ts: settle carried-over cells, then
dispatch the group's atoms. -/
def executeGroup (group : AtomGroup) (previousProps : Bag) : Bag :=
  (dispatchGroup group (settleCarry previousProps)).1

/-- Observer: the keys whose atoms `executeGroup` invokes on this bag. -/
def invokedOfGroup (group : AtomGroup) (previousProps : Bag) : List String :=
  (dispatchGroup group (settleCarry previousProps)).2

/-- One entry of the settle loop inside `reaction` (molecule.ts lines
103-112): `prop instanceof Promise ? await prop.catch((e) => e) : prop`. -/
def settleEntry (v : JSVal) : JSVal :=
  match v with
  | vpromise _ _ out _ => awaitCatch out
  | w => w

/-- The settle loop of `reaction` over a yielded bag. -/
def settleBag (b : Bag) : Bag := mapVals settleEntry b

/-- `hasErrors` from catalyze.ts (and the error check of the settle loop in
`reaction`): some value of the bag is an `Error` instance. -/
def hasErrors (b : Bag) : Bool :=
  b.any (fun p => isErrorV p.2)

/-- Suspension points of the `reaction` async generator: the loop-head yield
`nextProps = yield props` (line 94), the in-flight yield `yield newProps`
(line 100, carrying the yielded bag), and the settled yield `yield props`
(line 114, carrying the `hasErrors` flag computed by the settle loop). -/
inductive RPos where
  | atStart : RPos
  | atInflight : Nat → Bag → RPos
  | atSettled : Nat → Bool → RPos
  deriving Repr, DecidableEq

/-- The state of a suspended `reaction` generator: its internal `props`
variable, the `nextProps` received at the head of the current pass, and the
suspension point. -/
structure RState where
  props : Bag
  nextProps : Bag
  pos : RPos
  deriving Repr, DecidableEq

/-- Resuming `reaction` (molecule.ts lines 91-121) with the value `x`
passed to `generator.next`: returns the next yielded bag and the new
generator state.  `x` is only consumed at the loop-head yield; at the other
two yields the sent value is discarded by the source. -/
def rresume (mol : Molecule) : RState → Bag → Bag × RState
  | ⟨props, _, .atStart⟩, x =>
    match mol with
    | [] => (props, ⟨props, x, .atStart⟩)
    | g0 :: _ =>
      let merged := mergeBags x props
      let newProps := executeGroup g0 merged
      (newProps, ⟨props, x, .atInflight 0 newProps⟩)
  | ⟨_, nextProps, .atInflight g bag⟩, _ =>
    let settled := settleBag bag
    (settled, ⟨settled, nextProps, .atSettled g (hasErrors settled)⟩)
  | ⟨props, nextProps, .atSettled g hErr⟩, _ =>
    if hErr = true ∨ mol.length ≤ g + 1 then
      (props, ⟨props, nextProps, .atStart⟩)
    else
      let merged := mergeBags nextProps props
      let newProps := executeGroup (mol.getD (g + 1) []) merged
      (newProps, ⟨props, nextProps, .atInflight (g + 1) newProps⟩)

/-- Observer: which keys invoke their atom during one resumption of
`reaction` (mirrors the `executeGroup` calls inside `rresume`). -/
def rinvoked (mol : Molecule) : RState → Bag → List String
  | ⟨props, _, .atStart⟩, x =>
    match mol with
    | [] => []
    | g0 :: _ => invokedOfGroup g0 (mergeBags x props)
  | ⟨_, _, .atInflight _ _⟩, _ => []
  | ⟨props, nextProps, .atSettled g hErr⟩, _ =>
    if hErr = true ∨ mol.length ≤ g + 1 then []
    else invokedOfGroup (mol.getD (g + 1) []) (mergeBags nextProps props)

/-- Drive a suspended `reaction` generator with a list of sent values,
collecting each yielded bag together with the keys invoked at that step. -/
def rrun (mol : Molecule) (st : RState) : List Bag → List (Bag × List String)
  | [] => []
  | x :: xs =>
    let step := rresume mol st x
    (step.1, rinvoked mol st x) :: rrun mol step.2 xs

/-- One stage record of a single pass of `reaction`: the in-flight snapshot
yielded first, the settled snapshot yielded second, and the keys whose atoms
were invoked in this stage. -/
structure PassStep where
  inflight : Bag
  settled : Bag
  invoked : List String
  deriving Repr, DecidableEq

/-- One pass of `reaction`: its inner `for` loop (molecule.ts lines
95-119) over the remaining groups, with `nextProps` fixed for the pass and
the short-circuit `break` after a settled snapshot containing an error. -/
def runPass (nextProps : Bag) : Bag → Molecule → List PassStep
  | _, [] => []
  | props, group :: rest =>
    let merged := mergeBags nextProps props
    let inflight := executeGroup group merged
    let invoked := invokedOfGroup group merged
    let settled := settleBag inflight
    if hasErrors settled then [⟨inflight, settled, invoked⟩]
    else ⟨inflight, settled, invoked⟩ :: runPass nextProps settled rest

/-- Stage-settled error test of a pass, keyed by stage index: `true` when
the pass has an `i`-th stage record whose settled snapshot contains an
`Error` cell. -/
def passErrorAt (nextProps props : Bag) (mol : Molecule) (i : Nat) : Bool :=
  match (runPass nextProps props mol).get? i with
  | some rec => hasErrors rec.settled
  | none => false

/-- The overall status of a chain reaction, from catalyze.ts. -/
inductive ChainReactionState where
  | executing : ChainReactionState
  | invalidating : ChainReactionState
  | error : ChainReactionState
  | finished : ChainReactionState
  deriving Repr, DecidableEq

/-- `shouldAbort` from catalyze.ts compares the previous and newly received
external-input references by identity (`prev !== next`); object identity is
modelled by a numeric reference token supplied with each advance. -/
def shouldAbort (prev next : Nat) : Bool := prev != next

/-- `startReaction` from catalyze.ts: a fresh `reaction` generator, primed
by one `next()` call, so suspended at the loop-head yield with empty props. -/
def startReaction : RState := ⟨[], [], .atStart⟩

/-- Suspension points of the `catalyze` async generator: before the first
yield, the loop-head yield (line 35), the post-in-flight yield inside the
first `shouldAbort` check (line 47), the error yield (line 56), and the
post-settled yield inside the second `shouldAbort` check (line 63). -/
inductive CPos where
  | start : CPos
  | posA : CPos
  | posB : Nat → CPos
  | posC : CPos
  | posD : Nat → CPos
  deriving Repr, DecidableEq

/-- The state of a suspended `catalyze` generator: the inner `reaction`
generator state, the `props` and `state` variables, the suspension point,
and the `externalProps` captured at the last loop-head yield (identity
token plus bag). -/
structure CatalyzeState where
  rst : RState
  props : Bag
  status : ChainReactionState
  pos : CPos
  extRef : Nat
  extBag : Bag
  deriving Repr, DecidableEq

/-- An observation: the `[state, props]` pair yielded by `catalyze`. -/
abbrev Obs := ChainReactionState × Bag

/-- The two status adjustments at the bottom of the `while` loop of
`catalyze` (lines 69-77): `finished` resets to `executing`; `invalidating`
restarts the `reaction` generator and resets to `executing`. -/
def tailAdjust (status : ChainReactionState) (rst : RState) :
    ChainReactionState × RState :=
  let status1 := if status = .finished then .executing else status
  if status1 = .invalidating then (.executing, startReaction) else (status1, rst)

/-- Resuming `catalyze` (catalyze.ts lines 26-79) with the pair passed to
`generator.next` (reference token and external props bag): returns the next
yielded observation and the new generator state. -/
def catalyzeStep (mol : Molecule) (cs : CatalyzeState) (inp : Nat × Bag) :
    Obs × CatalyzeState :=
  match cs.pos with
  | .start => ((cs.status, cs.props), { cs with pos := .posA })
  | .posA =>
    match mol with
    | [] =>
      let t := tailAdjust cs.status cs.rst
      ((t.1, cs.props),
       { cs with status := t.1, rst := t.2, pos := .posA,
                 extRef := inp.1, extBag := inp.2 })
    | _ :: _ =>
      let step := rresume mol cs.rst (mergeBags cs.props inp.2)
      ((cs.status, step.1),
       { cs with rst := step.2, props := step.1, pos := .posB 0,
                 extRef := inp.1, extBag := inp.2 })
  | .posB g =>
    if shouldAbort cs.extRef inp.1 then
      ((.executing, cs.props),
       { cs with status := .executing, rst := startReaction, pos := .posA })
    else
      let step := rresume mol cs.rst cs.props
      if hasErrors step.1 then
        ((.error, step.1),
         { cs with status := .error, rst := step.2, props := step.1, pos := .posC })
      else
        let status := if g + 1 = mol.length then ChainReactionState.finished else cs.status
        ((status, step.1),
         { cs with status := status, rst := step.2, props := step.1, pos := .posD g })
  | .posC =>
    let t := tailAdjust cs.status cs.rst
    ((t.1, cs.props), { cs with status := t.1, rst := t.2, pos := .posA })
  | .posD g =>
    if shouldAbort cs.extRef inp.1 then
      ((.executing, ([] : Bag)),
       { cs with props := [], status := .executing, rst := startReaction, pos := .posA })
    else if g + 1 < mol.length then
      let step := rresume mol cs.rst (mergeBags cs.props cs.extBag)
      ((cs.status, step.1),
       { cs with rst := step.2, props := step.1, pos := .posB (g + 1) })
    else
      let t := tailAdjust cs.status cs.rst
      ((t.1, cs.props), { cs with status := t.1, rst := t.2, pos := .posA })

/-- Observer: which keys invoke their atom during one resumption of
`catalyze` (mirrors the `rresume` calls inside `catalyzeStep`). -/
def catalyzeInvoked (mol : Molecule) (cs : CatalyzeState) (inp : Nat × Bag) :
    List String :=
  match cs.pos with
  | .start => []
  | .posA =>
    match mol with
    | [] => []
    | _ :: _ => rinvoked mol cs.rst (mergeBags cs.props inp.2)
  | .posB _ =>
    if shouldAbort cs.extRef inp.1 then [] else rinvoked mol cs.rst cs.props
  | .posC => []
  | .posD g =>
    if shouldAbort cs.extRef inp.1 then []
    else if g + 1 < mol.length then rinvoked mol cs.rst (mergeBags cs.props cs.extBag)
    else []

/-- Drive a suspended `catalyze` generator with a list of advances,
collecting each observation with the keys invoked during that advance. -/
def catalyzeTrace (mol : Molecule) (cs : CatalyzeState) :
    List (Nat × Bag) → List (Obs × List String)
  | [] => []
  | inp :: inps =>
    let step := catalyzeStep mol cs inp
    (step.1, catalyzeInvoked mol cs inp) :: catalyzeTrace mol step.2 inps

/-- The observation stream of a driven `catalyze` generator. -/
def catalyzeObs (mol : Molecule) (cs : CatalyzeState) (inps : List (Nat × Bag)) :
    List Obs :=
  (catalyzeTrace mol cs inps).map Prod.fst

/-- The initial state of `catalyze` right after being created: fresh
(primed) `reaction` generator, empty props, status `executing`, suspended
before its first yield. -/
def catalyzeInit : CatalyzeState :=
  ⟨startReaction, [], .executing, .start, 0, []⟩

/-- Drive `catalyze` and return the final generator state. -/
def catalyzeSteps (mol : Molecule) (cs : CatalyzeState) (inps : List (Nat × Bag)) :
    CatalyzeState :=
  inps.foldl (fun s inp => (catalyzeStep mol s inp).2) cs

/-- Drive `reaction` and return the final generator state. -/
def rsteps (mol : Molecule) (st : RState) (xs : List Bag) : RState :=
  xs.foldl (fun s x => (rresume mol s x).2) st

/-- A bag has no duplicate keys (the invariant of a JS object). -/
def keysNodup (b : Bag) : Prop := (b.map Prod.fst).Nodup

instance (b : Bag) : Decidable (keysNodup b) :=
  inferInstanceAs (Decidable ((b.map Prod.fst).Nodup))

theorem getK_nil (k : String) : getK [] k = undef := rfl

theorem getK_cons (p : String × JSVal) (b : Bag) (k : String) :
    getK (p :: b) k = if p.1 = k then p.2 else getK b k := by
  by_cases h : p.1 = k <;> simp [getK, List.find?_cons, h]

theorem hasK_nil (k : String) : hasK [] k = false := rfl

theorem hasK_cons (p : String × JSVal) (b : Bag) (k : String) :
    hasK (p :: b) k = (p.1 = k || hasK b k) := by
  by_cases h : p.1 = k <;> simp [hasK, h]

theorem hasK_of_getK {b : Bag} {k : String} (h : getK b k ≠ undef) :
    hasK b k = true := by
  induction b with
  | nil => simp [getK_nil] at h
  | cons p rest ih =>
    rw [getK_cons] at h
    rw [hasK_cons]
    by_cases hp : p.1 = k
    · simp [hp]
    · simp [hp] at h
      simp [hp, ih h]

theorem hasK_iff_mem (b : Bag) (k : String) :
    hasK b k = true ↔ k ∈ b.map Prod.fst := by
  simp [hasK, List.any_eq_true]

theorem getK_replace (b : Bag) (k : String) (v : JSVal) :
    getK (b.map (fun p => if p.1 = k then (k, v) else p)) k
      = if hasK b k then v else undef := by
  induction b with
  | nil => simp [getK_nil, hasK_nil]
  | cons p rest ih =>
    by_cases hp : p.1 = k
    · simp [hp, getK_cons, hasK_cons]
    · simp [hp, getK_cons, hasK_cons, ih]

theorem getK_replace_other (b : Bag) (k k1 : String) (v : JSVal) (h : k1 ≠ k) :
    getK (b.map (fun p => if p.1 = k1 then (k1, v) else p)) k = getK b k := by
  induction b with
  | nil => simp [getK_nil]
  | cons p rest ih =>
    by_cases hp : p.1 = k1
    · rw [List.map_cons, if_pos hp, getK_cons, getK_cons]
      simp only [hp, if_neg h]
      exact ih
    · rw [List.map_cons, if_neg hp, getK_cons, getK_cons, ih]

theorem getK_append_single (b : Bag) (k k1 : String) (v : JSVal) :
    getK (b ++ [(k1, v)]) k
      = if hasK b k then getK b k else if k1 = k then v else undef := by
  induction b with
  | nil => simp [getK_nil, hasK_nil, getK_cons]
  | cons p rest ih =>
    by_cases hp : p.1 = k
    · simp [getK_cons, hasK_cons, hp]
    · simp [getK_cons, hasK_cons, hp, ih]

theorem getK_eq_undef_of_not_hasK {b : Bag} {k : String} (h : hasK b k = false) :
    getK b k = undef := by
  induction b with
  | nil => rfl
  | cons p rest ih =>
    rw [hasK_cons] at h
    simp at h
    rw [getK_cons, if_neg h.1, ih h.2]

theorem getK_setK_same (b : Bag) (k : String) (v : JSVal) :
    getK (setK b k v) k = v := by
  unfold setK
  by_cases h : hasK b k
  · simp [h, getK_replace]
  · simp [h, getK_append_single]

theorem getK_setK_other (b : Bag) (k k1 : String) (v : JSVal) (h : k1 ≠ k) :
    getK (setK b k1 v) k = getK b k := by
  unfold setK
  by_cases hk : hasK b k1
  · simp [hk, getK_replace_other b k k1 v h]
  · simp [hk, getK_append_single, h]
    intro hb
    exact (getK_eq_undef_of_not_hasK hb).symm

theorem keys_replace (b : Bag) (k : String) (v : JSVal) :
    (b.map (fun p => if p.1 = k then (k, v) else p)).map Prod.fst
      = b.map Prod.fst := by
  induction b with
  | nil => rfl
  | cons p rest ih =>
    by_cases hp : p.1 = k <;> simp [hp, ih]

theorem keysNodup_setK {b : Bag} (k : String) (v : JSVal) (h : keysNodup b) :
    keysNodup (setK b k v) := by
  unfold setK
  by_cases hk : hasK b k
  · rw [if_pos hk]
    unfold keysNodup
    rw [keys_replace]
    exact h
  · rw [if_neg hk]
    unfold keysNodup
    rw [List.map_append, List.nodup_append]
    refine ⟨h, List.nodup_singleton _, ?_⟩
    intro a ha
    simp
    intro hak
    subst hak
    rw [hasK_iff_mem] at hk
    simp [ha] at hk

theorem keysNodup_mergeBags {a : Bag} (b : Bag) (h : keysNodup a) :
    keysNodup (mergeBags a b) := by
  induction b generalizing a with
  | nil => exact h
  | cons p rest ih => exact ih (keysNodup_setK p.1 p.2 h)

theorem mergeBags_nil (a : Bag) : mergeBags a [] = a := rfl

theorem mergeBags_cons (a : Bag) (p : String × JSVal) (b : Bag) :
    mergeBags a (p :: b) = mergeBags (setK a p.1 p.2) b := rfl

theorem getK_mergeBags_not_has (a : Bag) {b : Bag} {k : String}
    (h : hasK b k = false) : getK (mergeBags a b) k = getK a k := by
  induction b generalizing a with
  | nil => rfl
  | cons p rest ih =>
    rw [hasK_cons] at h
    simp at h
    rw [mergeBags_cons, ih _ h.2, getK_setK_other _ _ _ _ h.1]

theorem getK_mergeBags_right (a : Bag) {b : Bag} {k : String}
    (hnd : keysNodup b) (h : hasK b k = true) :
    getK (mergeBags a b) k = getK b k := by
  induction b generalizing a with
  | nil => simp [hasK_nil] at h
  | cons p rest ih =>
    rw [keysNodup, List.map_cons, List.nodup_cons] at hnd
    rw [mergeBags_cons, getK_cons]
    by_cases hp : p.1 = k
    · have hrest : hasK rest k = false := by
        by_contra hc
        simp at hc
        rw [hasK_iff_mem] at hc
        exact hnd.1 (hp ▸ hc)
      rw [if_pos hp, getK_mergeBags_not_has _ hrest, ← hp, getK_setK_same]
    · rw [hasK_cons] at h
      simp [hp] at h
      rw [if_neg hp, ih _ hnd.2 h]

theorem getK_mapVals {f : JSVal → JSVal} (hf : f undef = undef) (b : Bag)
    (k : String) : getK (mapVals f b) k = f (getK b k) := by
  induction b with
  | nil => simp [mapVals, getK_nil, hf]
  | cons p rest ih =>
    rw [mapVals, List.map_cons, getK_cons, getK_cons]
    by_cases hp : p.1 = k
    · simp [hp]
    · simp only [hp, if_false]
      exact ih

theorem keys_mapVals (f : JSVal → JSVal) (b : Bag) :
    (mapVals f b).map Prod.fst = b.map Prod.fst := by
  induction b with
  | nil => rfl
  | cons p rest ih => simpa [mapVals] using ih

theorem keysNodup_mapVals (f : JSVal → JSVal) {b : Bag} (h : keysNodup b) :
    keysNodup (mapVals f b) := by
  unfold keysNodup
  rw [keys_mapVals]
  exact h

theorem settleCarryEntry_undef : settleCarryEntry undef = undef := rfl

theorem settleCarryEntry_err (e : String) :
    settleCarryEntry (verr e) = verr e := rfl

theorem settleEntry_undef : settleEntry undef = undef := rfl

theorem settleEntry_err (e : String) : settleEntry (verr e) = verr e := rfl

theorem getK_settleCarry (b : Bag) (k : String) :
    getK (settleCarry b) k = settleCarryEntry (getK b k) :=
  getK_mapVals settleCarryEntry_undef b k

theorem getK_settleBag (b : Bag) (k : String) :
    getK (settleBag b) k = settleEntry (getK b k) :=
  getK_mapVals settleEntry_undef b k

theorem hasErrors_of_getK {b : Bag} {k e : String} (h : getK b k = verr e) :
    hasErrors b = true := by
  induction b with
  | nil => simp [getK_nil] at h
  | cons p rest ih =>
    rw [getK_cons] at h
    rw [hasErrors, List.any_cons]
    by_cases hp : p.1 = k
    · rw [if_pos hp] at h
      simp [h, isErrorV]
    · rw [if_neg hp] at h
      have := ih h
      rw [hasErrors] at this
      simp [this]

theorem dispatch_not_mem {group : AtomGroup} {k : String} (start : Bag)
    (h : k ∉ group.map Prod.fst) :
    getK (dispatchGroup group start).1 k = getK start k ∧
      k ∉ (dispatchGroup group start).2 := by
  induction group generalizing start with
  | nil => simp [dispatchGroup]
  | cons kv rest ih =>
    rw [List.map_cons] at h
    have hne : k ≠ kv.1 := fun hh => h (by simp [hh])
    have hrest : k ∉ rest.map Prod.fst := fun hh => h (List.mem_cons_of_mem _ hh)
    rw [dispatchGroup]
    simp only
    by_cases hskip : truthy (getK start kv.1) && isErrorV (getK start kv.1)
    · rw [if_pos hskip]
      exact ih start hrest
    · rw [if_neg hskip]
      have hrec := ih (setK start kv.1
        (vpromise false false (kv.2 start)
          (if isResolved (getK start kv.1) then getK start kv.1 else undef))) hrest
      refine ⟨?_, ?_⟩
      · rw [hrec.1, getK_setK_other _ _ _ _ (Ne.symm hne)]
      · simp [hne, hrec.2]

theorem dispatch_err {group : AtomGroup} {k e : String} (start : Bag)
    (h : getK start k = verr e) :
    getK (dispatchGroup group start).1 k = verr e ∧
      k ∉ (dispatchGroup group start).2 := by
  induction group generalizing start with
  | nil => simpa [dispatchGroup]
  | cons kv rest ih =>
    rw [dispatchGroup]
    simp only
    by_cases hkv : kv.1 = k
    · have hcur : getK start kv.1 = verr e := by rw [hkv, h]
      rw [hcur]
      simp [truthy, isErrorV]
      exact ih start h
    · by_cases hskip : truthy (getK start kv.1) && isErrorV (getK start kv.1)
      · rw [if_pos hskip]
        exact ih start h
      · rw [if_neg hskip]
        have hset : getK (setK start kv.1
            (vpromise false false (kv.2 start)
              (if isResolved (getK start kv.1) then getK start kv.1 else undef))) k
            = verr e := by
          rw [getK_setK_other _ _ _ _ hkv, h]
        have hrec := ih _ hset
        refine ⟨hrec.1, ?_⟩
        intro hmem
        rcases List.mem_cons.mp hmem with h1 | h1
        · exact hkv h1.symm
        · exact hrec.2 h1

theorem dispatch_sub {group : AtomGroup} (start : Bag) :
    ∀ k ∈ (dispatchGroup group start).2, k ∈ group.map Prod.fst := by
  induction group generalizing start with
  | nil => simp [dispatchGroup]
  | cons kv rest ih =>
    rw [dispatchGroup]
    simp only
    by_cases hskip : truthy (getK start kv.1) && isErrorV (getK start kv.1)
    · rw [if_pos hskip]
      intro k hk
      exact List.mem_cons_of_mem _ (ih start k hk)
    · rw [if_neg hskip]
      intro k hk
      rcases List.mem_cons.mp hk with h1 | h1
      · simp [h1]
      · exact List.mem_cons_of_mem _ (ih _ k h1)

theorem dispatch_nodup {group : AtomGroup} {start : Bag}
    (h : keysNodup start) : keysNodup (dispatchGroup group start).1 := by
  induction group generalizing start with
  | nil => simpa [dispatchGroup]
  | cons kv rest ih =>
    rw [dispatchGroup]
    simp only
    by_cases hskip : truthy (getK start kv.1) && isErrorV (getK start kv.1)
    · rw [if_pos hskip]
      exact ih h
    · rw [if_neg hskip]
      exact ih (keysNodup_setK _ _ h)

theorem executeGroup_err {group : AtomGroup} {k e : String} (prev : Bag)
    (h : getK prev k = verr e) :
    getK (executeGroup group prev) k = verr e ∧
      k ∉ invokedOfGroup group prev := by
  have hs : getK (settleCarry prev) k = verr e := by
    rw [getK_settleCarry, h, settleCarryEntry_err]
  exact dispatch_err (settleCarry prev) hs

theorem executeGroup_nodup {group : AtomGroup} {prev : Bag}
    (h : keysNodup prev) : keysNodup (executeGroup group prev) :=
  dispatch_nodup (keysNodup_mapVals settleCarryEntry h)

/-- Claim C9: for every value `a`, if `isRefreshing a` is true then both
`isResolved a` and `isPending a` are true — a refreshing cell is
simultaneously classified as resolved and as pending by the public helper
queries, so the classifications are not mutually exclusive. -/
theorem C9_refreshing_resolved_and_pending (a : JSVal)
    (h : isRefreshing a = true) : isResolved a = true ∧ isPending a = true := by
  cases a with
  | undef => simp [isRefreshing, isPending] at h
  | vstr s => simp [isRefreshing, isPending] at h
  | verr e => simp [isRefreshing, isPending] at h
  | vpromise res rej out p =>
    cases res <;> cases rej <;>
      simp_all [isRefreshing, isPending, isResolved, isRejected]

/-- Witness for C9 at a concrete refreshing promise. -/
theorem C9_refreshing_resolved_and_pending_witness :
    isRefreshing (vpromise false false (Except.ok (some "v")) (vstr "v")) = true ∧
      (isResolved (vpromise false false (Except.ok (some "v")) (vstr "v")) = true ∧
       isPending (vpromise false false (Except.ok (some "v")) (vstr "v")) = true) :=
  ⟨by decide, C9_refreshing_resolved_and_pending _ (by decide)⟩

def c4atom : Atom := fun b =>
  .ok (some ("saw " ++ (match getK b "a" with | vstr s => s | _ => "?")))

def c4mol : Molecule := [[("a", c4atom)]]

def c4ext : Bag := [("a", vstr "ext")]

/-- The stage-executor state after one full pass of `c4mol` driven with the
external bag `c4ext` (three resumptions: dispatch, settle, pass end). -/
def c4pass1 : RState := rsteps c4mol startReaction [c4ext, c4ext, c4ext]

/-- Counterexample to claim C4: at the advance that starts the second pass,
the external input `a = "ext"` and the carried-forward engine output
`a = "saw ext"` share the key `a`, but the merged props bag computed by the
stage executor (`{...nextProps, ...props}`, molecule.ts line 96) contains
the engine output, not the externally supplied value; the atom dispatched
from it indeed observes the engine value. -/
theorem C4_counterexample :
    c4pass1.pos = RPos.atStart ∧
    hasK c4pass1.props "a" = true ∧
    getK c4ext "a" = vstr "ext" ∧
    getK (mergeBags c4ext c4pass1.props) "a" = vstr "saw ext" ∧
    getK (mergeBags c4ext c4pass1.props) "a" ≠ getK c4ext "a" ∧
    getK ((rresume c4mol c4pass1 c4ext).1) "a"
      = vpromise false false (Except.ok (some "saw saw ext")) (vstr "saw ext") := by
  decide

/-- Claim C4 as amended: in the merged props bag `{...nextProps, ...props}`
passed to the atoms, a key present in the engine's carried-forward bag keeps
the engine value (engine outputs take precedence over externally supplied
inputs); the externally supplied value is used only for keys the engine bag
does not contain. -/
theorem C4_merge_precedence (nextProps props : Bag) (k : String)
    (hnd : keysNodup props) :
    (hasK props k = true → getK (mergeBags nextProps props) k = getK props k) ∧
    (hasK props k = false → getK (mergeBags nextProps props) k = getK nextProps k) :=
  ⟨fun h => getK_mergeBags_right _ hnd h, fun h => getK_mergeBags_not_has _ h⟩

/-- Witness for the amended C4 at concrete bags. -/
theorem C4_merge_precedence_witness :
    keysNodup [("a", vstr "engine"), ("b", vstr "old")] ∧
    (getK (mergeBags [("a", vstr "ext"), ("c", vstr "new")]
        [("a", vstr "engine"), ("b", vstr "old")]) "a" = vstr "engine" ∧
     getK (mergeBags [("a", vstr "ext"), ("c", vstr "new")]
        [("a", vstr "engine"), ("b", vstr "old")]) "c" = vstr "new") :=
  ⟨by decide,
   ⟨((C4_merge_precedence [("a", vstr "ext"), ("c", vstr "new")]
        [("a", vstr "engine"), ("b", vstr "old")] "a" (by decide)).1
        (by decide)).trans (by decide),
    ((C4_merge_precedence [("a", vstr "ext"), ("c", vstr "new")]
        [("a", vstr "engine"), ("b", vstr "old")] "c" (by decide)).2
        (by decide)).trans (by decide)⟩⟩

/-- Stage-tagged invocations of a pass: each stage record's invoked keys,
tagged with the stage index. -/
def passInvokedFrom (j : Nat) : List PassStep → List (Nat × String)
  | [] => []
  | rec :: rest => rec.invoked.map (fun k => (j, k)) ++ passInvokedFrom (j + 1) rest

theorem passInvokedFrom_lt (recs : List PassStep) :
    ∀ j p, p ∈ passInvokedFrom j recs → p.1 < j + recs.length := by
  induction recs with
  | nil => simp [passInvokedFrom]
  | cons rec rest ih =>
    intro j p hp
    rw [passInvokedFrom, List.mem_append] at hp
    rcases hp with hp | hp
    · rcases List.mem_map.mp hp with ⟨k, _, rfl⟩
      simp
    · have := ih (j + 1) p hp
      simp at this ⊢
      omega

theorem runPass_length_of_error (nextProps : Bag) :
    ∀ (mol : Molecule) (props : Bag) (i : Nat),
      passErrorAt nextProps props mol i = true →
      (runPass nextProps props mol).length = i + 1 := by
  intro mol
  induction mol with
  | nil =>
    intro props i h
    simp [passErrorAt, runPass] at h
  | cons group rest ih =>
    intro props i h
    rw [passErrorAt] at h
    rw [runPass] at h ⊢
    by_cases he : hasErrors (settleBag (executeGroup group (mergeBags nextProps props)))
    · rw [if_pos he] at h ⊢
      match i with
      | 0 => rfl
      | n + 1 => simp at h
    · rw [if_neg he] at h ⊢
      match i with
      | 0 => simp at h; exact absurd h he
      | n + 1 =>
        rw [List.get?_cons_succ] at h
        have := ih _ n h
        simp [this]

/-- Claim C1: for every molecule and every pass, if the cells of stage `i`
settle with a Failed (Error) cell, the stage sequence stops after stage `i`:
the pass has exactly `i + 1` stage records, and every atom invocation of the
pass belongs to a stage index at most `i`. -/
theorem C1_error_short_circuits_pass (mol : Molecule) (nextProps props : Bag)
    (i : Nat) (h : passErrorAt nextProps props mol i = true) :
    (runPass nextProps props mol).length = i + 1 ∧
    ∀ p ∈ passInvokedFrom 0 (runPass nextProps props mol), p.1 ≤ i := by
  have hlen := runPass_length_of_error nextProps mol props i h
  refine ⟨hlen, fun p hp => ?_⟩
  have := passInvokedFrom_lt _ 0 p hp
  rw [hlen] at this
  omega

def c1mol : Molecule :=
  [[("a", fun _ => .ok (some "x"))],
   [("b", fun _ => .error "boom")],
   [("c", fun _ => .ok (some "z"))]]

/-- Witness for C1: a three-stage molecule whose second stage fails; the
pass has exactly two stage records and no stage-2 invocation. -/
theorem C1_error_short_circuits_pass_witness :
    passErrorAt [("p", vstr "hi")] [] c1mol 1 = true ∧
    ((runPass [("p", vstr "hi")] [] c1mol).length = 1 + 1 ∧
     ∀ p ∈ passInvokedFrom 0 (runPass [("p", vstr "hi")] [] c1mol), p.1 ≤ 1) :=
  ⟨by decide, C1_error_short_circuits_pass c1mol [("p", vstr "hi")] [] 1 (by decide)⟩

theorem dispatch_mem {group : AtomGroup} {k : String} {a : Atom} (start : Bag)
    (hg : (group.map Prod.fst).Nodup) (hmem : (k, a) ∈ group)
    (hskip : (truthy (getK start k) && isErrorV (getK start k)) = false) :
    ∃ bg, getK (dispatchGroup group start).1 k
        = vpromise false false (a bg)
            (if isResolved (getK start k) then getK start k else undef) ∧
      k ∈ (dispatchGroup group start).2 := by
  induction group generalizing start with
  | nil => simp at hmem
  | cons kv rest ih =>
    rw [List.map_cons, List.nodup_cons] at hg
    rcases List.mem_cons.mp hmem with heq | hmem1
    · have hk : kv.1 = k := by rw [← heq]
      have ha : kv.2 = a := by rw [← heq]
      rw [dispatchGroup]
      simp only
      rw [hk, ha, if_neg (by simp [hskip])]
      have hnot : k ∉ rest.map Prod.fst := hk ▸ hg.1
      have hstep := dispatch_not_mem (setK start k
        (vpromise false false (a start)
          (if isResolved (getK start k) then getK start k else undef))) hnot
      exact ⟨start, by rw [hstep.1, getK_setK_same], by simp⟩
    · have hk : k ∈ rest.map Prod.fst :=
        List.mem_map.mpr ⟨(k, a), hmem1, rfl⟩
      have hne : kv.1 ≠ k := fun hh => hg.1 (hh ▸ hk)
      rw [dispatchGroup]
      simp only
      by_cases hs : truthy (getK start kv.1) && isErrorV (getK start kv.1)
      · rw [if_pos hs]
        exact ih start hg.2 hmem1 hskip
      · rw [if_neg hs]
        have hpre : getK (setK start kv.1
            (vpromise false false (kv.2 start)
              (if isResolved (getK start kv.1) then getK start kv.1 else undef))) k
            = getK start k := getK_setK_other _ _ _ _ hne
        have := ih (setK start kv.1
          (vpromise false false (kv.2 start)
            (if isResolved (getK start kv.1) then getK start kv.1 else undef)))
          hg.2 hmem1 (by rw [hpre]; exact hskip)
        rcases this with ⟨bg, h1, h2⟩
        rw [hpre] at h1
        exact ⟨bg, h1, List.mem_cons_of_mem _ h2⟩

/-- Counterexample molecule for C8: stage 1's atom `b` requires the input
`missing`, which is never supplied, so it resolves to `undefined`. -/
def c8mol : Molecule :=
  [[("a", fun _ => .ok (some "x"))],
   [("b", fun b => match getK b "missing" with
                   | JSVal.undef => .ok none
                   | _ => .ok (some "y"))]]

def c8recs : List PassStep := runPass [("p", vstr "hi")] [] c8mol

/-- Counterexample to claim C8: the key `b`, whose required input `missing`
is absent for the whole pass, is nevertheless dispatched: the in-flight
snapshot of its stage shows it Pending, contradicting the claim that no
snapshot of the pass ever shows such a key Pending.  (It is Absent before
its stage and Absent again in the settled snapshot.) -/
theorem C8_counterexample :
    hasK ((c8recs.getD 0 ⟨[], [], []⟩).inflight) "b" = false ∧
    hasK ((c8recs.getD 0 ⟨[], [], []⟩).settled) "b" = false ∧
    isPending (getK ((c8recs.getD 1 ⟨[], [], []⟩).inflight) "b") = true ∧
    getK ((c8recs.getD 1 ⟨[], [], []⟩).settled) "b" = undef := by decide

/-- Claim C8 as amended: a key whose required inputs are absent is still
dispatched by its stage (its cell is not an `Error`): the in-flight snapshot
of the stage shows the key Pending, and when its atom resolves to absent the
settled snapshot shows the key Absent (`undefined`). -/
theorem C8_absent_input_pending_then_absent (group : AtomGroup) (prev : Bag)
    (k : String) (a : Atom) (hg : (group.map Prod.fst).Nodup)
    (hmem : (k, a) ∈ group)
    (hskip : (truthy (getK (settleCarry prev) k)
        && isErrorV (getK (settleCarry prev) k)) = false)
    (habs : ∀ b, a b = .ok none) :
    isPending (getK (executeGroup group prev) k) = true ∧
    getK (settleBag (executeGroup group prev)) k = undef := by
  rcases dispatch_mem (settleCarry prev) hg hmem hskip with ⟨bg, h1, _⟩
  rw [executeGroup] at *
  constructor
  · rw [h1]
    rfl
  · rw [getK_settleBag, h1, settleEntry, habs bg]
    rfl

/-- Witness for the amended C8: stage 1 of the counterexample molecule. -/
theorem C8_absent_input_pending_then_absent_witness :
    isPending (getK (executeGroup
      [("b", fun _ => (.ok none : Except String (Option String)))]
      [("p", vstr "hi"), ("a", vstr "x")]) "b") = true ∧
    getK (settleBag (executeGroup
      [("b", fun _ => (.ok none : Except String (Option String)))]
      [("p", vstr "hi"), ("a", vstr "x")])) "b" = undef :=
  C8_absent_input_pending_then_absent _ _ "b" _ (by decide) (by simp)
    (by decide) (fun _ => rfl)

/-- A suspended `reaction` generator holds the Failed cell `k ↦ Error e`:
in its internal props, and in the yielded in-flight bag when suspended
there. -/
def ErrCellR (k e : String) (st : RState) : Prop :=
  getK st.props k = verr e ∧
    ∀ g bag, st.pos = RPos.atInflight g bag → getK bag k = verr e

/-- Well-formedness of a suspended `reaction` generator: all bags it holds
have JS-object keys (no duplicates). -/
def WfR (st : RState) : Prop :=
  keysNodup st.props ∧ keysNodup st.nextProps ∧
    ∀ g bag, st.pos = RPos.atInflight g bag → keysNodup bag

theorem rresume_err (mol : Molecule) (st : RState) (x : Bag) (k e : String)
    (hwf : WfR st) (hx : keysNodup x) (he : ErrCellR k e st) :
    getK (rresume mol st x).1 k = verr e ∧
    keysNodup (rresume mol st x).1 ∧
    k ∉ rinvoked mol st x ∧
    ErrCellR k e (rresume mol st x).2 ∧
    WfR (rresume mol st x).2 := by
  obtain ⟨props, nextProps, pos⟩ := st
  obtain ⟨hw1, hw2, hw3⟩ := hwf
  obtain ⟨he1, he2⟩ := he
  simp only at hw1 hw2 hw3 he1 he2
  have hhas : hasK props k = true :=
    hasK_of_getK (by rw [he1]; exact fun hc => JSVal.noConfusion hc)
  cases pos with
  | atStart =>
    cases mol with
    | nil =>
      refine ⟨he1, hw1, by simp [rinvoked], ⟨he1, ?_⟩, hw1, hx, ?_⟩ <;>
        exact fun g bag h => nomatch h
    | cons g0 rest =>
      have hmerged : getK (mergeBags x props) k = verr e := by
        rw [getK_mergeBags_right x hw1 hhas, he1]
      have hmnd : keysNodup (mergeBags x props) := keysNodup_mergeBags props hx
      have hee := @executeGroup_err g0 k e (mergeBags x props) hmerged
      have heq : rresume (g0 :: rest) ⟨props, nextProps, .atStart⟩ x
          = (executeGroup g0 (mergeBags x props),
             ⟨props, x, .atInflight 0 (executeGroup g0 (mergeBags x props))⟩) := rfl
      have heqi : rinvoked (g0 :: rest) ⟨props, nextProps, .atStart⟩ x
          = invokedOfGroup g0 (mergeBags x props) := rfl
      rw [heq, heqi]
      refine ⟨hee.1, executeGroup_nodup hmnd, hee.2, ⟨he1, ?_⟩, hw1, hx, ?_⟩ <;>
        · intro g bag h
          cases h
          first
            | exact hee.1
            | exact executeGroup_nodup hmnd
  | atInflight g bag =>
    have hbag : getK bag k = verr e := he2 g bag rfl
    have hbnd : keysNodup bag := hw3 g bag rfl
    have hset : getK (settleBag bag) k = verr e := by
      rw [getK_settleBag, hbag, settleEntry_err]
    have heq : rresume mol ⟨props, nextProps, .atInflight g bag⟩ x
        = (settleBag bag,
           ⟨settleBag bag, nextProps, .atSettled g (hasErrors (settleBag bag))⟩) := rfl
    have heqi : rinvoked mol ⟨props, nextProps, .atInflight g bag⟩ x = [] := rfl
    rw [heq, heqi]
    refine ⟨hset, keysNodup_mapVals _ hbnd, by simp, ⟨hset, ?_⟩,
      keysNodup_mapVals _ hbnd, hw2, ?_⟩ <;>
      exact fun g1 bag1 h => nomatch h
  | atSettled g hErr =>
    by_cases hstop : hErr = true ∨ mol.length ≤ g + 1
    · have heq : rresume mol ⟨props, nextProps, .atSettled g hErr⟩ x
          = (props, ⟨props, nextProps, .atStart⟩) := by
        simp only [rresume]
        rw [if_pos hstop]
      have heqi : rinvoked mol ⟨props, nextProps, .atSettled g hErr⟩ x = [] := by
        simp only [rinvoked]
        rw [if_pos hstop]
      rw [heq, heqi]
      refine ⟨he1, hw1, by simp, ⟨he1, ?_⟩, hw1, hw2, ?_⟩ <;>
        exact fun g1 bag1 h => nomatch h
    · have hmerged : getK (mergeBags nextProps props) k = verr e := by
        rw [getK_mergeBags_right nextProps hw1 hhas, he1]
      have hmnd : keysNodup (mergeBags nextProps props) :=
        keysNodup_mergeBags props hw2
      have hee := @executeGroup_err (mol.getD (g + 1) []) k e
        (mergeBags nextProps props) hmerged
      have heq : rresume mol ⟨props, nextProps, .atSettled g hErr⟩ x
          = (executeGroup (mol.getD (g + 1) []) (mergeBags nextProps props),
             ⟨props, nextProps, .atInflight (g + 1)
               (executeGroup (mol.getD (g + 1) []) (mergeBags nextProps props))⟩) := by
        simp only [rresume]
        rw [if_neg hstop]
      have heqi : rinvoked mol ⟨props, nextProps, .atSettled g hErr⟩ x
          = invokedOfGroup (mol.getD (g + 1) []) (mergeBags nextProps props) := by
        simp only [rinvoked]
        rw [if_neg hstop]
      rw [heq, heqi]
      refine ⟨hee.1, executeGroup_nodup hmnd, hee.2, ⟨he1, ?_⟩, hw1, hw2, ?_⟩ <;>
        · intro g1 bag1 h
          cases h
          first
            | exact hee.1
            | exact executeGroup_nodup hmnd

/-- Claim C3: within one run of the stage executor (no restart of the
generator), once a key's cell is Failed with `Error e`, every subsequently
yielded snapshot holds the identical error value at that key, and no later
stage segment re-invokes that key's atom. -/
theorem C3_failed_key_latched (mol : Molecule) (st : RState) (k e : String)
    (xs : List Bag) (hwf : WfR st) (hxs : ∀ x ∈ xs, keysNodup x)
    (he : ErrCellR k e st) :
    ∀ p ∈ rrun mol st xs, getK p.1 k = verr e ∧ k ∉ p.2 := by
  induction xs generalizing st with
  | nil => simp [rrun]
  | cons x rest ih =>
    intro p hp
    have hb := rresume_err mol st x k e hwf (hxs x (by simp)) he
    rw [rrun] at hp
    rcases List.mem_cons.mp hp with rfl | hp1
    · exact ⟨hb.1, hb.2.2.1⟩
    · exact ih _ hb.2.2.2.2 (fun y hy => hxs y (List.mem_cons_of_mem _ hy))
        hb.2.2.2.1 p hp1

def c3mol : Molecule :=
  [[("a", fun _ => .ok (some "x"))], [("b", fun _ => .ok (some "y"))]]

def c3st : RState := ⟨[("a", verr "boom"), ("p", vstr "hi")], [], .atStart⟩

/-- Witness for C3: a state whose cell `a` is Failed, driven for two
segments: every snapshot keeps `Error "boom"` at `a` and `a` is never
re-invoked. -/
theorem C3_failed_key_latched_witness :
    WfR c3st ∧ ErrCellR "a" "boom" c3st ∧
    ∀ p ∈ rrun c3mol c3st [[("p", vstr "hi")], [("p", vstr "hi")]],
      getK p.1 "a" = verr "boom" ∧ "a" ∉ p.2 :=
  ⟨⟨by decide, by decide, fun g bag h => nomatch h⟩,
   ⟨by decide, fun g bag h => nomatch h⟩,
   C3_failed_key_latched c3mol c3st "a" "boom" _
     ⟨by decide, by decide, fun g bag h => nomatch h⟩
     (by intro x hx; rcases List.mem_cons.mp hx with rfl | hx1
         · decide
         · rcases List.mem_cons.mp hx1 with rfl | hx2
           · decide
           · simp at hx2)
     ⟨by decide, fun g bag h => nomatch h⟩⟩

/-- Claim C5 as amended: when the external input reference changes while the
controller is suspended at the post-in-flight yield (mid-stage), no
Invalidating observation is ever emitted: the very next observation has
status Executing and carries the abandoned pass's props bag (stale cells
included), the `reaction` generator is restarted fresh, and no atom is
invoked during that advance. -/
theorem C5_abort_emits_executing (mol : Molecule) (cs : CatalyzeState)
    (g : Nat) (r : Nat) (d : Bag) (hpos : cs.pos = .posB g)
    (hne : cs.extRef ≠ r) :
    (catalyzeStep mol cs (r, d)).1 = (ChainReactionState.executing, cs.props) ∧
    (catalyzeStep mol cs (r, d)).2.rst = startReaction ∧
    (catalyzeStep mol cs (r, d)).2.pos = CPos.posA ∧
    (catalyzeStep mol cs (r, d)).2.status = ChainReactionState.executing ∧
    (catalyzeStep mol cs (r, d)).2.props = cs.props ∧
    catalyzeInvoked mol cs (r, d) = [] := by
  obtain ⟨rst, props, status, pos, extRef, extBag⟩ := cs
  simp only at hpos hne
  subst hpos
  have hab : shouldAbort extRef r = true := by
    simp [shouldAbort]
    exact hne
  simp [catalyzeStep, catalyzeInvoked, hab]

def c5mol : Molecule :=
  [[("a", fun _ => .ok (some "x"))], [("b", fun _ => .ok (some "y"))]]

def c5d0 : Bag := [("projectId", vstr "hi")]

def c5d1 : Bag := [("projectId", vstr "changed")]

def c5obs : List Obs :=
  catalyzeObs c5mol catalyzeInit [(0, c5d0), (0, c5d0), (1, c5d1), (1, c5d1)]

/-- Counterexample to claim C5: the external input reference changes (0 to
1) at the advance following the mid-stage in-flight observation (index 1);
the very next observation (index 2) has status Executing, not Invalidating
— no observation of the run has status Invalidating — and it still carries
the abandoned pass's pending cell `a`. -/
theorem C5_counterexample :
    (c5obs.getD 1 (.executing, [])).1 = .executing ∧
    isPending (getK (c5obs.getD 1 (.executing, [])).2 "a") = true ∧
    (c5obs.getD 2 (.executing, [])).1 = .executing ∧
    (c5obs.getD 2 (.executing, [])).1 ≠ .invalidating ∧
    isPending (getK (c5obs.getD 2 (.executing, [])).2 "a") = true ∧
    (c5obs.getD 2 (.executing, [])).2 = (c5obs.getD 1 (.executing, [])).2 ∧
    ∀ o ∈ c5obs, o.1 ≠ .invalidating := by decide

/-- The concrete mid-stage state for the C5 witness: `catalyze` suspended at
the post-in-flight yield of stage 0 with reference 0 captured. -/
def c5cs : CatalyzeState := catalyzeSteps c5mol catalyzeInit [(0, c5d0), (0, c5d0)]

/-- Witness for the amended C5 at the concrete mid-stage state. -/
theorem C5_abort_emits_executing_witness :
    c5cs.pos = CPos.posB 0 ∧ c5cs.extRef ≠ 1 ∧
    ((catalyzeStep c5mol c5cs (1, c5d1)).1
        = (ChainReactionState.executing, c5cs.props) ∧
     (catalyzeStep c5mol c5cs (1, c5d1)).2.rst = startReaction ∧
     (catalyzeStep c5mol c5cs (1, c5d1)).2.pos = CPos.posA ∧
     (catalyzeStep c5mol c5cs (1, c5d1)).2.status = ChainReactionState.executing ∧
     (catalyzeStep c5mol c5cs (1, c5d1)).2.props = c5cs.props ∧
     catalyzeInvoked c5mol c5cs (1, c5d1) = []) :=
  ⟨by decide, by decide,
   C5_abort_emits_executing c5mol c5cs 0 1 c5d1 (by decide) (by decide)⟩

/-- The error-latched configuration of `catalyze` after a pass has ended
with a Failed cell `k ↦ Error e` and the external reference is still `r`:
status is Error, the error is held in the props bag and in the `reaction`
generator, and the controller cycles through the loop-head, post-in-flight
and error yields. -/
def ELatch (k e : String) (r : Nat) (cs : CatalyzeState) : Prop :=
  cs.status = .error ∧ cs.extRef = r ∧ getK cs.props k = verr e ∧
  keysNodup cs.props ∧ ErrCellR k e cs.rst ∧ WfR cs.rst ∧
  (cs.pos = .posA ∨ cs.pos = .posB 0 ∨ cs.pos = .posC)

theorem catalyzeStep_elatch (mol : Molecule) (cs : CatalyzeState)
    (k e : String) (r : Nat) (d : Bag) (hl : ELatch k e r cs)
    (hd : keysNodup d) :
    (catalyzeStep mol cs (r, d)).1.1 = .error ∧
    getK (catalyzeStep mol cs (r, d)).1.2 k = verr e ∧
    k ∉ catalyzeInvoked mol cs (r, d) ∧
    ELatch k e r (catalyzeStep mol cs (r, d)).2 := by
  obtain ⟨rst, props, status, pos, extRef, extBag⟩ := cs
  obtain ⟨hst, href, hprops, hnd, herr, hwf, hpos⟩ := hl
  simp only at hst href hprops hnd herr hwf hpos
  subst hst
  subst href
  rcases hpos with hp | hp | hp <;> subst hp
  · cases mol with
    | nil =>
      have heq : catalyzeStep ([] : Molecule)
          ⟨rst, props, .error, .posA, extRef, extBag⟩ (extRef, d)
          = ((.error, props), ⟨rst, props, .error, .posA, extRef, d⟩) := by
        simp [catalyzeStep, tailAdjust]
      have heqi : catalyzeInvoked ([] : Molecule)
          ⟨rst, props, .error, .posA, extRef, extBag⟩ (extRef, d) = [] := rfl
      rw [heq, heqi]
      exact ⟨rfl, hprops, by simp,
        rfl, rfl, hprops, hnd, herr, hwf, Or.inl rfl⟩
    | cons g0 rest =>
      have hx : keysNodup (mergeBags props d) := keysNodup_mergeBags d hnd
      have hb := rresume_err (g0 :: rest) rst (mergeBags props d) k e hwf hx herr
      have heq : catalyzeStep (g0 :: rest)
          ⟨rst, props, .error, .posA, extRef, extBag⟩ (extRef, d)
          = ((.error, (rresume (g0 :: rest) rst (mergeBags props d)).1),
             ⟨(rresume (g0 :: rest) rst (mergeBags props d)).2,
              (rresume (g0 :: rest) rst (mergeBags props d)).1, .error, .posB 0,
              extRef, d⟩) := rfl
      have heqi : catalyzeInvoked (g0 :: rest)
          ⟨rst, props, .error, .posA, extRef, extBag⟩ (extRef, d)
          = rinvoked (g0 :: rest) rst (mergeBags props d) := rfl
      rw [heq, heqi]
      exact ⟨rfl, hb.1, hb.2.2.1, rfl, rfl, hb.1, hb.2.1, hb.2.2.2.1,
        hb.2.2.2.2, Or.inr (Or.inl rfl)⟩
  · have hb := rresume_err mol rst props k e hwf hnd herr
    have herr1 : hasErrors (rresume mol rst props).1 = true :=
      hasErrors_of_getK hb.1
    have heq : catalyzeStep mol
        ⟨rst, props, .error, .posB 0, extRef, extBag⟩ (extRef, d)
        = ((.error, (rresume mol rst props).1),
           ⟨(rresume mol rst props).2, (rresume mol rst props).1, .error,
            .posC, extRef, extBag⟩) := by
      simp only [catalyzeStep]
      rw [if_neg (by simp [shouldAbort]), if_pos herr1]
    have heqi : catalyzeInvoked mol
        ⟨rst, props, .error, .posB 0, extRef, extBag⟩ (extRef, d)
        = rinvoked mol rst props := by
      simp only [catalyzeInvoked]
      rw [if_neg (by simp [shouldAbort])]
    rw [heq, heqi]
    exact ⟨rfl, hb.1, hb.2.2.1, rfl, rfl, hb.1, hb.2.1, hb.2.2.2.1,
      hb.2.2.2.2, Or.inr (Or.inr rfl)⟩
  · have heq : catalyzeStep mol
        ⟨rst, props, .error, .posC, extRef, extBag⟩ (extRef, d)
        = ((.error, props), ⟨rst, props, .error, .posA, extRef, extBag⟩) := by
      simp [catalyzeStep, tailAdjust]
    have heqi : catalyzeInvoked mol
        ⟨rst, props, .error, .posC, extRef, extBag⟩ (extRef, d) = [] := rfl
    rw [heq, heqi]
    exact ⟨rfl, hprops, by simp,
      rfl, rfl, hprops, hnd, herr, hwf, Or.inl rfl⟩

/-- Claim C6 as amended: once `catalyze` is in the error-latched
configuration and is advanced again with the identical external reference,
it emits status Error at every subsequent observation (not once), every
observed bag still holds the identical Failed cell, and the failed key's
atom is never re-invoked; only a reference change can leave the latch. -/
theorem C6_error_latch (mol : Molecule) (k e : String) (r : Nat)
    (cs : CatalyzeState) (inps : List (Nat × Bag)) (hl : ELatch k e r cs)
    (hin : ∀ i ∈ inps, i.1 = r ∧ keysNodup i.2) :
    ∀ p ∈ catalyzeTrace mol cs inps,
      p.1.1 = .error ∧ getK p.1.2 k = verr e ∧ k ∉ p.2 := by
  induction inps generalizing cs with
  | nil => simp [catalyzeTrace]
  | cons inp rest ih =>
    intro p hp
    obtain ⟨ri, di⟩ := inp
    have hi := hin (ri, di) (by simp)
    simp only at hi
    obtain ⟨rfl, hdnd⟩ := hi
    have hb := catalyzeStep_elatch mol cs k e ri di hl hdnd
    rw [catalyzeTrace] at hp
    rcases List.mem_cons.mp hp with rfl | hp1
    · exact ⟨hb.1, hb.2.1, hb.2.2.1⟩
    · exact ih _ hb.2.2.2 (fun y hy => hin y (List.mem_cons_of_mem _ hy)) p hp1

def c6mol : Molecule :=
  [[("a", fun _ => .ok (some "x")), ("b", fun _ => .error "boom")]]

def c6d : Bag := [("projectId", vstr "hi")]

def c6trace : List (Obs × List String) :=
  catalyzeTrace c6mol catalyzeInit (List.replicate 7 (0, c6d))

/-- Counterexample to claim C6: after the pass ends with the Failed cell
`b`, advancing `catalyze` with the identical external reference emits
status Error again and again (indices 2 to 6), and at the advance of index
5 the non-failed atom `a` is re-invoked — the controller does not stop
driving passes, and Error is not emitted only once. -/
theorem C6_counterexample :
    ((c6trace.getD 2 ((.executing, []), [])).1.1 = .error ∧
     (c6trace.getD 3 ((.executing, []), [])).1.1 = .error ∧
     (c6trace.getD 4 ((.executing, []), [])).1.1 = .error ∧
     (c6trace.getD 5 ((.executing, []), [])).1.1 = .error ∧
     (c6trace.getD 6 ((.executing, []), [])).1.1 = .error) ∧
    (c6trace.getD 5 ((.executing, []), [])).2 = ["a"] ∧
    (c6trace.getD 5 ((.executing, []), [])).2 ≠ [] := by decide

/-- The concrete error-latched state for the C6 witness. -/
def c6cs : CatalyzeState :=
  catalyzeSteps c6mol catalyzeInit [(0, c6d), (0, c6d), (0, c6d)]

/-- Witness for the amended C6: from the concrete error-latched state, four
more same-reference advances all observe Error with the identical error
value at `b`, and `b` is never re-invoked. -/
theorem C6_error_latch_witness :
    ELatch "b" "boom" 0 c6cs ∧
    ∀ p ∈ catalyzeTrace c6mol c6cs (List.replicate 4 (0, c6d)),
      p.1.1 = .error ∧ getK p.1.2 "b" = verr "boom" ∧ "b" ∉ p.2 := by
  have hpos : c6cs.rst.pos = RPos.atSettled 0 true := by decide
  have hlatch : ELatch "b" "boom" 0 c6cs := by
    refine ⟨by decide, by decide, by decide, by decide,
      ⟨by decide, fun g bag h => ?_⟩,
      ⟨by decide, by decide, fun g bag h => ?_⟩,
      Or.inr (Or.inr (by decide))⟩ <;>
    · rw [hpos] at h
      exact nomatch h
  refine ⟨hlatch, C6_error_latch c6mol "b" "boom" 0 c6cs _ hlatch ?_⟩
  intro i hi
  rw [List.mem_replicate] at hi
  rw [hi.2]
  exact ⟨rfl, by decide⟩

def c7mol : Molecule := [[("first", fun _ => .ok (some "first"))]]

def c7d : Bag := [("projectId", vstr "hi")]

def c7obs : List Obs := catalyzeObs c7mol catalyzeInit (List.replicate 8 (0, c7d))

def c7bag (i : Nat) : Bag := (c7obs.getD i (.executing, [])).2

/-- Counterexample to claim C7: in a single-stage graph driven with constant
inputs, the first Finished observation is at index 2 and the cell `first`
(Resolved in that pass) is observed plainly Resolved again already at index
3 with no intervening Refreshing observation; the Refreshing-with-previous-
value state is then observed at exactly the two indices 5 and 6 — never
exactly once before a Resolved observation. -/
theorem C7_counterexample :
    c7obs.map Prod.fst
      = [.executing, .executing, .finished, .executing, .executing, .finished,
         .executing, .executing] ∧
    isResolved (getK (c7bag 2) "first") = true ∧
    getK (c7bag 2) "first" = vstr "first" ∧
    getK (c7bag 3) "first" = vstr "first" ∧
    ((List.range 8).filter
      (fun i => isRefreshing (getK (c7bag i) "first"))) = [5, 6] := by decide

/-- Claim C7 as amended: after a Finished observation, advancing with the
same inputs yields a next observation with status Executing; the previously
Resolved cell is still observed Resolved with its old value for the next
two observations, is then observed Refreshing carrying its previous value
in exactly two consecutive observations (the first of which is the
misaligned Finished observation of the next pass), and is then observed
Resolved again. -/
theorem C7_refresh_pattern :
    c7obs.map Prod.fst
      = [.executing, .executing, .finished, .executing, .executing, .finished,
         .executing, .executing] ∧
    getK (c7bag 3) "first" = vstr "first" ∧
    getK (c7bag 4) "first" = vstr "first" ∧
    isRefreshing (getK (c7bag 5) "first") = true ∧
    previousValue (getK (c7bag 5) "first") = vstr "first" ∧
    isRefreshing (getK (c7bag 6) "first") = true ∧
    previousValue (getK (c7bag 6) "first") = vstr "first" ∧
    getK (c7bag 7) "first" = vstr "first" ∧
    ((List.range 8).filter
      (fun i => isRefreshing (getK (c7bag i) "first"))) = [5, 6] := by decide

/-- Claim C10: the session controller's error detection inspects every key
of the props bag, including caller-supplied inputs.  If the external bag
contains an `Error` value at any key — even though every atom succeeds —
the first settled observation reports status Error carrying that error
verbatim, the controller halts at the error yield, stage 0 is the only
stage that dispatched atoms, and nothing is invoked at the settling
advance. -/
theorem C10_external_error_reports_error (g0 : AtomGroup) (rest : Molecule)
    (d : Bag) (k e : String) (r : Nat) (hk : getK d k = verr e)
    (hnd : keysNodup d)
    (hok : ∀ gr ∈ (g0 :: rest : Molecule), ∀ ka ∈ gr, ∀ b : Bag,
      ∃ o, ka.2 b = Except.ok o) :
    ((catalyzeObs (g0 :: rest) catalyzeInit [(r, d), (r, d), (r, d)]).map
        Prod.fst = [.executing, .executing, .error]) ∧
    getK ((catalyzeObs (g0 :: rest) catalyzeInit
        [(r, d), (r, d), (r, d)]).getD 2 (.executing, [])).2 k = verr e ∧
    (catalyzeSteps (g0 :: rest) catalyzeInit [(r, d), (r, d), (r, d)]).pos
      = CPos.posC ∧
    (∀ p ∈ catalyzeTrace (g0 :: rest) catalyzeInit [(r, d), (r, d), (r, d)],
      ∀ kk ∈ p.2, kk ∈ g0.map Prod.fst) := by
  have hx : getK (mergeBags ([] : Bag) d) k = verr e := by
    rw [getK_mergeBags_right [] hnd
      (hasK_of_getK (by rw [hk]; exact fun hc => JSVal.noConfusion hc)), hk]
  have hI0 := @executeGroup_err g0 k e (mergeBags [] d) hx
  have h1 : catalyzeStep (g0 :: rest) catalyzeInit (r, d)
      = ((.executing, []), ⟨startReaction, [], .executing, .posA, 0, []⟩) := rfl
  have h1i : catalyzeInvoked (g0 :: rest) catalyzeInit (r, d) = [] := rfl
  have h2 : catalyzeStep (g0 :: rest)
      ⟨startReaction, [], .executing, .posA, 0, []⟩ (r, d)
      = ((.executing, executeGroup g0 (mergeBags [] d)),
         ⟨⟨[], mergeBags [] d, .atInflight 0 (executeGroup g0 (mergeBags [] d))⟩,
          executeGroup g0 (mergeBags [] d), .executing, .posB 0, r, d⟩) := rfl
  have h2i : catalyzeInvoked (g0 :: rest)
      ⟨startReaction, [], .executing, .posA, 0, []⟩ (r, d)
      = invokedOfGroup g0 (mergeBags [] d) := rfl
  have hrr : rresume (g0 :: rest)
      ⟨[], mergeBags [] d, .atInflight 0 (executeGroup g0 (mergeBags [] d))⟩
      (executeGroup g0 (mergeBags [] d))
      = (settleBag (executeGroup g0 (mergeBags [] d)),
         ⟨settleBag (executeGroup g0 (mergeBags [] d)), mergeBags [] d,
          .atSettled 0 (hasErrors (settleBag (executeGroup g0 (mergeBags [] d))))⟩) := rfl
  have hsetk : getK (settleBag (executeGroup g0 (mergeBags [] d))) k = verr e := by
    rw [getK_settleBag, hI0.1, settleEntry_err]
  have herr1 : hasErrors (settleBag (executeGroup g0 (mergeBags [] d))) = true :=
    hasErrors_of_getK hsetk
  have h3 : catalyzeStep (g0 :: rest)
      ⟨⟨[], mergeBags [] d, .atInflight 0 (executeGroup g0 (mergeBags [] d))⟩,
       executeGroup g0 (mergeBags [] d), .executing, .posB 0, r, d⟩ (r, d)
      = ((.error, settleBag (executeGroup g0 (mergeBags [] d))),
         ⟨⟨settleBag (executeGroup g0 (mergeBags [] d)), mergeBags [] d,
           .atSettled 0 true⟩,
          settleBag (executeGroup g0 (mergeBags [] d)), .error, .posC, r, d⟩) := by
    simp only [catalyzeStep]
    rw [if_neg (by simp [shouldAbort])]
    rw [hrr]
    rw [if_pos herr1, herr1]
  have h3i : catalyzeInvoked (g0 :: rest)
      ⟨⟨[], mergeBags [] d, .atInflight 0 (executeGroup g0 (mergeBags [] d))⟩,
       executeGroup g0 (mergeBags [] d), .executing, .posB 0, r, d⟩ (r, d)
      = [] := by
    simp only [catalyzeInvoked]
    rw [if_neg (by simp [shouldAbort])]
    rfl
  refine ⟨?_, ?_, ?_, ?_⟩
  · simp [catalyzeObs, catalyzeTrace, h1, h2, h3]
  · simp only [catalyzeObs, catalyzeTrace, h1, h2, h3]
    simpa using hsetk
  · simp [catalyzeSteps, h1, h2, h3]
  · simp only [catalyzeTrace, h1, h2, h3, h1i, h2i, h3i]
    intro p hp
    rcases List.mem_cons.mp hp with rfl | hp1
    · simp
    · rcases List.mem_cons.mp hp1 with rfl | hp2
      · intro kk hkk
        simp only at hkk
        exact dispatch_sub _ kk hkk
      · rcases List.mem_cons.mp hp2 with rfl | hp3
        · simp
        · simp at hp3

def c10mol0 : AtomGroup := [("a", fun _ => .ok (some "x"))]

def c10rest : Molecule := [[("b", fun _ => .ok (some "y"))]]

def c10d : Bag := [("projectId", vstr "hi"), ("supplied", verr "caller error")]

/-- Witness for C10: the caller passes `supplied ↦ Error "caller error"`;
with every atom succeeding, the first settled observation is Error with the
caller's error verbatim. -/
theorem C10_external_error_reports_error_witness :
    getK c10d "supplied" = verr "caller error" ∧
    (((catalyzeObs (c10mol0 :: c10rest) catalyzeInit
        [(0, c10d), (0, c10d), (0, c10d)]).map Prod.fst
        = [.executing, .executing, .error]) ∧
     getK ((catalyzeObs (c10mol0 :: c10rest) catalyzeInit
        [(0, c10d), (0, c10d), (0, c10d)]).getD 2 (.executing, [])).2 "supplied"
        = verr "caller error" ∧
     (catalyzeSteps (c10mol0 :: c10rest) catalyzeInit
        [(0, c10d), (0, c10d), (0, c10d)]).pos = CPos.posC ∧
     (∀ p ∈ catalyzeTrace (c10mol0 :: c10rest) catalyzeInit
        [(0, c10d), (0, c10d), (0, c10d)],
       ∀ kk ∈ p.2, kk ∈ c10mol0.map Prod.fst)) :=
  ⟨by decide,
   C10_external_error_reports_error c10mol0 c10rest c10d "supplied"
     "caller error" 0 (by decide) (by decide)
     (by intro gr hgr ka hka b
         rcases List.mem_cons.mp hgr with rfl | hgr1
         · rcases List.mem_cons.mp hka with rfl | h
           · exact ⟨some "x", rfl⟩
           · simp at h
         · rcases List.mem_cons.mp hgr1 with rfl | h
           · rcases List.mem_cons.mp hka with rfl | h1
             · exact ⟨some "y", rfl⟩
             · simp at h1
           · simp at h)⟩

/-- An atom that never fails: its promise always resolves. -/
def atomNeverFails (a : Atom) : Prop := ∀ b : Bag, ∃ o, a b = Except.ok o

/-- Every atom of the molecule never fails. -/
def molAtomsOk (mol : Molecule) : Prop :=
  ∀ gr ∈ mol, ∀ ka ∈ gr, atomNeverFails (ka.2 : Atom)

/-- A value free of failure: not an `Error` and, if a promise, one whose
outcome is a resolution. -/
def valOkB : JSVal → Bool
  | verr _ => false
  | vpromise _ _ (.error _) _ => false
  | _ => true

/-- A bag free of failure in every cell. -/
def bagOkB (b : Bag) : Bool := b.all (fun p => valOkB p.2)

theorem hasErrors_eq_false_of_bagOk {b : Bag} (h : bagOkB b = true) :
    hasErrors b = false := by
  rw [hasErrors, List.any_eq_false]
  intro p hp
  have hv := List.all_eq_true.mp h p hp
  cases hev : p.2 with
  | verr e => rw [hev] at hv; simp [valOkB] at hv
  | undef => simp [isErrorV]
  | vstr s => simp [isErrorV]
  | vpromise res rej out pv => simp [isErrorV]

theorem valOk_awaitCatch (o : Option String) :
    valOkB (awaitCatch (.ok o)) = true := by cases o <;> rfl

theorem valOk_awaitPlain (o : Option String) :
    valOkB (awaitPlain (.ok o)) = true := by cases o <;> rfl

theorem valOk_settleCarryEntry {v : JSVal} (h : valOkB v = true) :
    valOkB (settleCarryEntry v) = true := by
  cases v with
  | undef => rfl
  | vstr s => exact h
  | verr e => simp [valOkB] at h
  | vpromise res rej out pv =>
    cases out with
    | error e => simp [valOkB] at h
    | ok o =>
      rw [settleCarryEntry]
      by_cases hr : isRejected (vpromise res rej (.ok o) pv)
      · rw [if_pos hr]
        exact valOk_awaitCatch o
      · rw [if_neg hr]
        by_cases hs : isResolved (vpromise res rej (.ok o) pv)
        · rw [if_pos hs]
          exact valOk_awaitPlain o
        · rw [if_neg hs]
          exact h

theorem valOk_settleEntry {v : JSVal} (h : valOkB v = true) :
    valOkB (settleEntry v) = true := by
  cases v with
  | undef => rfl
  | vstr s => rfl
  | verr e => simp [valOkB] at h
  | vpromise res rej out pv =>
    cases out with
    | error e => simp [valOkB] at h
    | ok o => exact valOk_awaitCatch o

theorem bagOk_mapVals {f : JSVal → JSVal}
    (hf : ∀ v, valOkB v = true → valOkB (f v) = true) {b : Bag}
    (h : bagOkB b = true) : bagOkB (mapVals f b) = true := by
  rw [bagOkB, mapVals, List.all_map]
  rw [List.all_eq_true]
  intro p hp
  exact hf p.2 (List.all_eq_true.mp h p hp)

theorem bagOk_setK {b : Bag} {v : JSVal} (k : String) (hb : bagOkB b = true)
    (hv : valOkB v = true) : bagOkB (setK b k v) = true := by
  rw [setK]
  by_cases hk : hasK b k
  · rw [if_pos hk, bagOkB, List.all_map, List.all_eq_true]
    intro p hp
    by_cases hpk : p.1 = k
    · simpa [hpk] using hv
    · simpa [hpk] using List.all_eq_true.mp hb p hp
  · rw [if_neg hk, bagOkB, List.all_append]
    simp only [List.all_cons, List.all_nil]
    rw [bagOkB] at hb
    simp [hb, hv]

theorem bagOk_mergeBags {a : Bag} (b : Bag) (ha : bagOkB a = true)
    (hb : bagOkB b = true) : bagOkB (mergeBags a b) = true := by
  induction b generalizing a with
  | nil => exact ha
  | cons p rest ih =>
    rw [bagOkB, List.all_cons] at hb
    simp only [Bool.and_eq_true] at hb
    exact ih (bagOk_setK p.1 ha hb.1) hb.2

theorem bagOk_dispatch {group : AtomGroup} {s : Bag}
    (hg : ∀ ka ∈ group, atomNeverFails (ka.2 : Atom)) (hs : bagOkB s = true) :
    bagOkB (dispatchGroup group s).1 = true := by
  induction group generalizing s with
  | nil => exact hs
  | cons kv rest ih =>
    rw [dispatchGroup]
    simp only
    by_cases hskip : truthy (getK s kv.1) && isErrorV (getK s kv.1)
    · rw [if_pos hskip]
      exact ih (fun ka hka => hg ka (List.mem_cons_of_mem _ hka)) hs
    · rw [if_neg hskip]
      obtain ⟨o, ho⟩ := hg kv (by simp) s
      refine ih (fun ka hka => hg ka (List.mem_cons_of_mem _ hka)) ?_
      refine bagOk_setK _ hs ?_
      rw [ho]
      rfl

theorem bagOk_executeGroup {group : AtomGroup} {prev : Bag}
    (hg : ∀ ka ∈ group, atomNeverFails (ka.2 : Atom))
    (h : bagOkB prev = true) : bagOkB (executeGroup group prev) = true :=
  bagOk_dispatch hg (bagOk_mapVals (fun _ => valOk_settleCarryEntry) h)

theorem bagOk_settleBag {b : Bag} (h : bagOkB b = true) :
    bagOkB (settleBag b) = true :=
  bagOk_mapVals (fun _ => valOk_settleEntry) h

/-- Mid-pass invariant of a clean (error-free) run: `catalyze` is suspended
at the post-in-flight yield of stage `g`, status Executing, the captured
reference is `r`, and the in-flight bag (shared between the controller and
the suspended `reaction` generator) and the pass input bag are free of
failures. -/
def InvB (mol : Molecule) (r g : Nat) (cs : CatalyzeState) : Prop :=
  cs.pos = .posB g ∧ cs.status = .executing ∧ cs.extRef = r ∧
  g < mol.length ∧ bagOkB cs.props = true ∧
  bagOkB cs.rst.nextProps = true ∧
  cs.rst.pos = RPos.atInflight g cs.props

theorem catalyzeStep_invB (mol : Molecule) (r g : Nat) (cs : CatalyzeState)
    (d : Bag) (hinv : InvB mol r g cs) :
    catalyzeStep mol cs (r, d)
      = ((if g + 1 = mol.length then ChainReactionState.finished
            else ChainReactionState.executing, settleBag cs.props),
         { cs with
             rst := ⟨settleBag cs.props, cs.rst.nextProps, .atSettled g false⟩,
             props := settleBag cs.props,
             status := if g + 1 = mol.length then ChainReactionState.finished
               else ChainReactionState.executing,
             pos := .posD g }) ∧
    bagOkB (settleBag cs.props) = true := by
  obtain ⟨rst, props, status, pos, extRef, extBag⟩ := cs
  obtain ⟨hpos, hstatus, href, hlt, hpok, hnpok, hrpos⟩ := hinv
  simp only at hpos hstatus href hlt hpok hnpok hrpos
  subst hpos
  subst hstatus
  subst href
  obtain ⟨rprops, rnext, rpos⟩ := rst
  simp only at hrpos hnpok
  subst hrpos
  have hsok : bagOkB (settleBag props) = true := bagOk_settleBag hpok
  have hnoerr : hasErrors (settleBag props) = false :=
    hasErrors_eq_false_of_bagOk hsok
  refine ⟨?_, hsok⟩
  simp only [catalyzeStep]
  rw [if_neg (by simp [shouldAbort])]
  have hrr : rresume mol ⟨rprops, rnext, .atInflight g props⟩ props
      = (settleBag props,
         ⟨settleBag props, rnext, .atSettled g (hasErrors (settleBag props))⟩) := rfl
  rw [hrr, hnoerr]
  rw [if_neg (by simp)]

theorem catalyzeStep_invD (mol : Molecule) (r g : Nat)
    (settled np extBag d : Bag) (st : ChainReactionState)
    (hgt : g + 1 < mol.length) (hsok : bagOkB settled = true)
    (hnp : bagOkB np = true) (hmol : molAtomsOk mol) :
    catalyzeStep mol
      ⟨⟨settled, np, .atSettled g false⟩, settled, st, .posD g, r, extBag⟩ (r, d)
      = ((st, executeGroup (mol.getD (g + 1) []) (mergeBags np settled)),
         ⟨⟨settled, np, .atInflight (g + 1)
             (executeGroup (mol.getD (g + 1) []) (mergeBags np settled))⟩,
          executeGroup (mol.getD (g + 1) []) (mergeBags np settled), st,
          .posB (g + 1), r, extBag⟩) ∧
    bagOkB (executeGroup (mol.getD (g + 1) []) (mergeBags np settled)) = true := by
  have hmem : mol.getD (g + 1) [] ∈ mol := by
    rw [List.getD_eq_getElem _ _ hgt]
    exact List.getElem_mem hgt
  have hok : bagOkB (executeGroup (mol.getD (g + 1) []) (mergeBags np settled))
      = true :=
    bagOk_executeGroup (fun ka hka => hmol _ hmem ka hka)
      (bagOk_mergeBags settled hnp hsok)
  refine ⟨?_, hok⟩
  simp only [catalyzeStep]
  rw [if_neg (by simp [shouldAbort])]
  rw [if_pos hgt]
  have hrr : rresume mol ⟨settled, np, .atSettled g false⟩
      (mergeBags settled extBag)
      = (executeGroup (mol.getD (g + 1) []) (mergeBags np settled),
         ⟨settled, np, .atInflight (g + 1)
           (executeGroup (mol.getD (g + 1) []) (mergeBags np settled))⟩) := by
    simp only [rresume]
    rw [if_neg (by rintro (h | h); exact nomatch h; omega)]
  rw [hrr]

theorem catalyzeObs_cons (mol : Molecule) (cs : CatalyzeState)
    (inp : Nat × Bag) (inps : List (Nat × Bag)) :
    catalyzeObs mol cs (inp :: inps)
      = (catalyzeStep mol cs inp).1
          :: catalyzeObs mol (catalyzeStep mol cs inp).2 inps := by
  simp [catalyzeObs, catalyzeTrace]

theorem C2aux (mol : Molecule) (r : Nat) (hmol : molAtomsOk mol) :
    ∀ (m g : Nat) (cs : CatalyzeState) (d : Bag),
      g + m + 1 = mol.length → InvB mol r g cs →
      (catalyzeObs mol cs (List.replicate (2 * m + 1) (r, d))).map Prod.fst
        = List.replicate (2 * m) ChainReactionState.executing
            ++ [ChainReactionState.finished] := by
  intro m
  induction m with
  | zero =>
    intro g cs d hN hinv
    have hB := catalyzeStep_invB mol r g cs d hinv
    have hg : g + 1 = mol.length := by omega
    rw [show (2 * 0 + 1) = 1 from rfl]
    rw [show List.replicate 1 ((r : Nat), d) = [(r, d)] from rfl]
    rw [catalyzeObs_cons, hB.1]
    simp [hg, catalyzeObs, catalyzeTrace]
  | succ m ih =>
    intro g cs d hN hinv
    have hB := catalyzeStep_invB mol r g cs d hinv
    have hgt : g + 1 < mol.length := by omega
    have hstatus : (if g + 1 = mol.length then ChainReactionState.finished
        else ChainReactionState.executing) = .executing := if_neg (by omega)
    rw [hstatus] at hB
    have href : cs.extRef = r := hinv.2.2.1
    have hnpok : bagOkB cs.rst.nextProps = true := hinv.2.2.2.2.2.1
    have hD := catalyzeStep_invD mol r g (settleBag cs.props) cs.rst.nextProps
      cs.extBag d .executing hgt hB.2 hnpok hmol
    rw [show 2 * (m + 1) + 1 = (2 * m + 1) + 1 + 1 from by omega]
    rw [List.replicate_succ, catalyzeObs_cons, hB.1]
    rw [List.replicate_succ, catalyzeObs_cons]
    rw [href, hD.1]
    rw [show 2 * (m + 1) = 2 * m + 1 + 1 from by omega]
    rw [List.replicate_succ, List.replicate_succ]
    simp only [List.map_cons, List.cons_append]
    congr 1
    congr 1
    exact ih (g + 1)
      ⟨⟨settleBag cs.props, cs.rst.nextProps, .atInflight (g + 1)
          (executeGroup (mol.getD (g + 1) [])
            (mergeBags cs.rst.nextProps (settleBag cs.props)))⟩,
        executeGroup (mol.getD (g + 1) [])
          (mergeBags cs.rst.nextProps (settleBag cs.props)), .executing,
        .posB (g + 1), r, cs.extBag⟩ d (by omega)
      ⟨rfl, rfl, rfl, by omega, hD.2, hnpok, rfl⟩

/-- Claim C2: for every non-empty graph with N stages whose atoms all
succeed and whose external bag carries no failures, one complete pass of
the session controller produces exactly 2N observations with status
Executing before the observation whose status differs from Executing, which
is the Finished observation. -/
theorem C2_pass_observation_count (mol : Molecule) (r : Nat) (d : Bag)
    (hne : mol ≠ []) (hmol : molAtomsOk mol) (hd : bagOkB d = true) :
    (catalyzeObs mol catalyzeInit
        (List.replicate (2 * mol.length + 1) (r, d))).map Prod.fst
      = List.replicate (2 * mol.length) ChainReactionState.executing
          ++ [ChainReactionState.finished] := by
  cases mol with
  | nil => exact absurd rfl hne
  | cons g0 rest =>
    have h1 : catalyzeStep (g0 :: rest) catalyzeInit (r, d)
        = ((.executing, []), ⟨startReaction, [], .executing, .posA, 0, []⟩) := rfl
    have h2 : catalyzeStep (g0 :: rest)
        ⟨startReaction, [], .executing, .posA, 0, []⟩ (r, d)
        = ((.executing, executeGroup g0 (mergeBags [] d)),
           ⟨⟨[], mergeBags [] d, .atInflight 0 (executeGroup g0 (mergeBags [] d))⟩,
            executeGroup g0 (mergeBags [] d), .executing, .posB 0, r, d⟩) := rfl
    have hxok : bagOkB (mergeBags ([] : Bag) d) = true := bagOk_mergeBags d rfl hd
    have hIok : bagOkB (executeGroup g0 (mergeBags [] d)) = true :=
      bagOk_executeGroup (fun ka hka => hmol g0 (by simp) ka hka) hxok
    have hinv : InvB (g0 :: rest) r 0
        ⟨⟨[], mergeBags [] d, .atInflight 0 (executeGroup g0 (mergeBags [] d))⟩,
         executeGroup g0 (mergeBags [] d), .executing, .posB 0, r, d⟩ :=
      ⟨rfl, rfl, rfl, by simp, hIok, hxok, rfl⟩
    have haux := C2aux (g0 :: rest) r hmol rest.length 0 _ d (by simp) hinv
    rw [show (g0 :: rest : Molecule).length = rest.length + 1 from rfl]
    rw [show 2 * (rest.length + 1) + 1 = (2 * rest.length + 1) + 1 + 1 from by omega]
    rw [List.replicate_succ, catalyzeObs_cons, h1]
    rw [List.replicate_succ, catalyzeObs_cons, h2]
    rw [show 2 * (rest.length + 1) = 2 * rest.length + 1 + 1 from by omega]
    simp only [List.map_cons]
    rw [show List.replicate (2 * rest.length + 1 + 1) ChainReactionState.executing
        = ChainReactionState.executing :: ChainReactionState.executing
            :: List.replicate (2 * rest.length) ChainReactionState.executing from rfl]
    rw [List.cons_append, List.cons_append]
    congr 1
    congr 1
def c2mol : Molecule :=
  [[("a", fun _ => .ok (some "x"))], [("b", fun _ => .ok (some "y"))]]

def c2d : Bag := [("p", vstr "hi")]

/-- Witness for C2 at a concrete two-stage molecule: four Executing
observations, then Finished. -/
theorem C2_pass_observation_count_witness :
    c2mol ≠ [] ∧ bagOkB c2d = true ∧
    (catalyzeObs c2mol catalyzeInit
        (List.replicate (2 * c2mol.length + 1) (0, c2d))).map Prod.fst
      = List.replicate (2 * c2mol.length) ChainReactionState.executing
          ++ [ChainReactionState.finished] :=
  ⟨fun h => List.noConfusion h, by decide,
   C2_pass_observation_count c2mol 0 c2d (fun h => List.noConfusion h)
     (by intro gr hgr ka hka b
         rcases List.mem_cons.mp hgr with rfl | hgr1
         · rcases List.mem_cons.mp hka with rfl | h
           · exact ⟨some "x", rfl⟩
           · simp at h
         · rcases List.mem_cons.mp hgr1 with rfl | h
           · rcases List.mem_cons.mp hka with rfl | h1
             · exact ⟨some "y", rfl⟩
             · simp at h1
           · simp at h)
     (by decide)⟩
